import Mathlib

/-!
Verification development for the fca-free news worker (`src/index.ts`).

The TypeScript source is shallowly embedded below:

* `normalizeUrl`, `parsePubUTC`, `norm`, `computeTargetKST`, `computeShouldSend`
  are modelled as pure Lean functions;
* the platform `URL` class (used by `normalizeUrl`) is modelled by an explicit
  parser/serializer over a `scheme://hostpath?query#frag` grammar with the
  query held as a key/value list, mirroring WHATWG `URL` + `searchParams`
  behaviour on the fragment of inputs the worker manipulates (inputs
  containing whitespace after trimming are treated as unparsable, standing in
  for the percent-encoding/rejection behaviour of the real parser);
* Unicode NFKC + lower-casing (`norm`) is kept as an abstract parameter
  `nrm : String → String` of the pipeline, exactly at the call sites where the
  source applies `norm`;
* JavaScript `Date` instants are `Int` milliseconds; an unparsable `pubDate`
  is `none`;
* the KV store is a record of the two persisted keys, the Telegram
  transport is replaced by the message payloads recorded in the run outcome.
-/

/- ───────────────────────── generic list helpers ───────────────────────── -/

/-- Boolean test that `pat` occurs at the head of `l`. -/
def seqAtHead [BEq α] : List α → List α → Bool
  | [], _ => true
  | _ :: _, [] => false
  | a :: as, b :: bs => a == b && seqAtHead as bs

/-- Boolean test that `pat` occurs contiguously somewhere inside `l`
(JavaScript `String.prototype.includes` on the underlying characters). -/
def seqContains [BEq α] (pat : List α) : List α → Bool
  | [] => seqAtHead pat []
  | b :: bs => seqAtHead pat (b :: bs) || seqContains pat bs

/-- Split a list at the first occurrence of `c`; `none` when `c` is absent. -/
def splitFirst [DecidableEq α] (c : α) : List α → Option (List α × List α)
  | [] => none
  | x :: xs =>
    if x = c then some ([], xs)
    else
      match splitFirst c xs with
      | none => none
      | some (a, b) => some (x :: a, b)

/-- Split a list on every occurrence of `c` (always at least one segment). -/
def splitAll [DecidableEq α] (c : α) : List α → List (List α)
  | [] => [[]]
  | x :: xs =>
    if x = c then [] :: splitAll c xs
    else
      match splitAll c xs with
      | [] => [[x]]
      | a :: rest => (x :: a) :: rest

/-- Join segments with a single separator element between them. -/
def joinSep (c : α) : List (List α) → List α
  | [] => []
  | a :: rest =>
    match rest with
    | [] => a
    | _ :: _ => a ++ c :: joinSep c rest

/-- JavaScript `String.prototype.trim` on the character list. -/
def trimChars (l : List Char) : List Char :=
  ((l.dropWhile Char.isWhitespace).reverse.dropWhile Char.isWhitespace).reverse

/- ───────────────────────── URL model (platform `URL` class) ───────────────────────── -/

/-- Parsed URL: `scheme://hostpath?query#frag` with the query as the ordered
key/value list exposed by `searchParams`. -/
structure Url where
  scheme : List Char
  hostpath : List Char
  query : List (List Char × List Char)
  frag : Option (List Char)
deriving DecidableEq

/-- One `key=value` query pair; a segment without `=` is a key with empty
value, as in `URLSearchParams`. -/
def parsePair (seg : List Char) : List Char × List Char :=
  match splitFirst '=' seg with
  | none => (seg, [])
  | some kv => kv

/-- Query-string parsing: split on `&`, drop empty segments, split each
segment at its first `=`. -/
def parseQuery (l : List Char) : List (List Char × List Char) :=
  ((splitAll '&' l).filter (fun s => !s.isEmpty)).map parsePair

/-- Serialization of one query pair (`URLSearchParams` writes `k=` for an
empty value). -/
def serializePair (p : List Char × List Char) : List Char :=
  p.1 ++ '=' :: p.2

/-- Query-string serialization. -/
def serializeQuery (q : List (List Char × List Char)) : List Char :=
  joinSep '&' (q.map serializePair)

/-- Core URL parser over `scheme://hostpath?query#frag`. -/
def parseUrlCore (l : List Char) : Option Url :=
  match splitFirst ':' l with
  | none => none
  | some (sch, rest) =>
    if sch.isEmpty then none
    else
      match rest with
      | c1 :: c2 :: rest2 =>
        if c1 = '/' then
          if c2 = '/' then
            match rest2.dropWhile (fun c => !(c = '?' || c = '#')) with
            | [] => some ⟨sch, rest2.takeWhile (fun c => !(c = '?' || c = '#')), [], none⟩
            | d :: rest3 =>
              if d = '?' then
                match rest3.dropWhile (fun c => !(c = '#')) with
                | [] => some ⟨sch, rest2.takeWhile (fun c => !(c = '?' || c = '#')),
                    parseQuery (rest3.takeWhile (fun c => !(c = '#'))), none⟩
                | e :: fr =>
                  if e = '#' then
                    some ⟨sch, rest2.takeWhile (fun c => !(c = '?' || c = '#')),
                      parseQuery (rest3.takeWhile (fun c => !(c = '#'))), some fr⟩
                  else
                    some ⟨sch, rest2.takeWhile (fun c => !(c = '?' || c = '#')),
                      parseQuery (rest3.takeWhile (fun c => !(c = '#'))), none⟩
              else if d = '#' then
                some ⟨sch, rest2.takeWhile (fun c => !(c = '?' || c = '#')), [], some rest3⟩
              else none
          else none
        else none
      | _ => none

/-- URL parser: the constructor trims the input; a remaining whitespace
character makes the input unparsable in this model. -/
def parseUrl (s : String) : Option Url :=
  let t := trimChars s.toList
  if t.any Char.isWhitespace then none else parseUrlCore t

/-- URL serialization (`url.toString()`): query omitted when empty. -/
def serializeChars (u : Url) : List Char :=
  u.scheme ++ ':' :: '/' :: '/' :: u.hostpath
    ++ (if u.query.isEmpty then [] else '?' :: serializeQuery u.query)
    ++ (match u.frag with | none => [] | some f => '#' :: f)

/-- The fixed tracking query parameters removed by `normalizeUrl`. -/
def trackingKeys : List (List Char) :=
  ["utm_source".toList, "utm_medium".toList, "utm_campaign".toList,
   "utm_term".toList, "utm_content".toList, "utm_id".toList,
   "fbclid".toList, "gclid".toList]

/-- The structural part of `normalizeUrl`: force the scheme to `https` and
delete every tracking parameter from the query. -/
def normalizeUrlCore (u : Url) : Url :=
  { scheme := "https".toList
    hostpath := u.hostpath
    query := u.query.filter (fun p => !(trackingKeys.contains p.1))
    frag := u.frag }

/-- `normalizeUrl` from `src/index.ts`: on parse success, force `https:` and
strip tracking parameters; on failure return the trimmed input. -/
def normalizeUrl (s : String) : String :=
  match parseUrl s with
  | some u => String.mk (serializeChars (normalizeUrlCore u))
  | none => String.mk (trimChars s.toList)

/- ───────────────────────── data model ───────────────────────── -/

/-- Resolved configuration (`AppConfig` in the source).  Numeric fields are
the clamped values produced by `loadConfig`/`parseNumber`. -/
structure Config where
  search_keywords : List String
  include_keywords : List String
  exclude_keywords : List String
  display_per_call : Nat
  max_loops : Nat
  min_send_threshold : Nat
  force_hours : List Int
deriving DecidableEq

/-- One fetched search item, after the fetch-boundary decoding the source
applies before filtering: `title` is the decoded, `<b>`-stripped title text,
`link` is the raw link string, `pub` is the instant parsed by `parsePubUTC`
(`none` when the `pubDate` string is unparsable). -/
structure Item where
  title : String
  link : String
  pub : Option Int
deriving DecidableEq

/-- An accepted candidate (element of `collected`). -/
structure Candidate where
  title : String
  link : String
  pubUTC : Int
deriving DecidableEq

/-- Per-page counters (`loopReports` entries). -/
structure LoopReport where
  call_no : Nat
  fetched : Nat
  time_filtered : Nat
  title_include_fail : Nat
  title_exclude_hit : Nat
  title_include_pass : Nat
deriving DecidableEq

/-- Run-global mutable state of `searchRecentNews`: the dedup set `seen`,
the accepted `collected` list, all watermark-passing publish instants
(`pubTimesUTC`), and the `stopDueToOld` flag. -/
structure RunState where
  seen : List String
  collected : List Candidate
  pubTimes : List Int
  stop : Bool
deriving DecidableEq

/-- Page-local counters of the inner loop. -/
structure PageCounters where
  time_filtered : Nat
  include_fail : Nat
  exclude_hit : Nat
deriving DecidableEq

def initRunState : RunState := ⟨[], [], [], false⟩

/- ───────────────────────── time helpers ───────────────────────── -/

def KST_MS : Int := 9 * 3600 * 1000

def HOUR_MS : Int := 3600 * 1000

/-- `toKST`: shift an instant by the fixed KST offset. -/
def toKST (t : Int) : Int := t + KST_MS

/-- `Date.prototype.getUTCHours` on an instant in milliseconds. -/
def hourOfDay (t : Int) : Int := (t.fdiv HOUR_MS).emod 24

/-- `setUTCMinutes(0,0,0)`: floor an instant to the hour. -/
def floorToHour (t : Int) : Int := t - t.emod HOUR_MS

/-- `computeTargetKST` from the source, returning the target instant in UTC
milliseconds (the slot identifier persisted as `last_sent_target_iso`):
shift to KST, floor to the hour, round an odd hour up to the next even hour,
shift back to UTC. -/
def computeTargetUTC (fromUTC : Int) : Int :=
  let k := toKST fromUTC
  let t := floorToHour k
  let t2 := if hourOfDay t % 2 ≠ 0 then t + HOUR_MS else t
  t2 - KST_MS

/- ───────────────────────── item filtering ───────────────────────── -/

/-- The normalized-keyword substring test the source performs as
`tNorm.includes(norm(k))`, with the normalizer `nrm` abstract. -/
def titleMatches (nrm : String → String) (tNorm : String) (k : String) : Bool :=
  seqContains (nrm k).toList tNorm.toList

/-- The canonical link of an item: `normalizeUrl(String(it?.link || "").trim())`. -/
def itemLink (it : Item) : String :=
  normalizeUrl (String.mk (trimChars it.link.toList))

/-- The watermark test `lastChecked && pubUTC.getTime() <= lastChecked.getTime()`. -/
def isOld (lastChecked : Option Int) (pub : Int) : Bool :=
  match lastChecked with
  | none => false
  | some w => pub ≤ w

/-- The body of the inner `for (const it of items)` loop of
`searchRecentNews`: drop items with unparsable timestamps, set
`stopDueToOld` (and skip) on a watermark failure, count the item as
time-filtered, then apply the include filter, the exclude filter and link
deduplication, collecting survivors. -/
def processItem (cfg : Config) (nrm : String → String) (lastChecked : Option Int)
    (s : RunState × PageCounters) (it : Item) : RunState × PageCounters :=
  let (rs, pc) := s
  match it.pub with
  | none => (rs, pc)
  | some pub =>
    let link := itemLink it
    if isOld lastChecked pub then
      ({ rs with stop := true }, pc)
    else
      let rs := { rs with pubTimes := rs.pubTimes ++ [pub] }
      let pc := { pc with time_filtered := pc.time_filtered + 1 }
      let tNorm := nrm it.title
      let includeOk :=
        cfg.include_keywords.isEmpty || cfg.include_keywords.any (titleMatches nrm tNorm)
      if !includeOk then
        (rs, { pc with include_fail := pc.include_fail + 1 })
      else if cfg.exclude_keywords.any (titleMatches nrm tNorm) then
        (rs, { pc with exclude_hit := pc.exclude_hit + 1 })
      else if rs.seen.contains link then
        (rs, pc)
      else
        ({ rs with seen := rs.seen ++ [link],
                   collected := rs.collected ++ [⟨it.title, link, pub⟩] }, pc)

/-- The run-global effect of one item (the page counters do not influence
the run state). -/
def stepRS (cfg : Config) (nrm : String → String) (lastChecked : Option Int)
    (rs : RunState) (it : Item) : RunState :=
  (processItem cfg nrm lastChecked (rs, ⟨0, 0, 0⟩) it).1

/- ───────────────────────── page loop ───────────────────────── -/

/-- Accumulator of the page loop: run state plus the reports pushed so far. -/
structure RunAcc where
  rs : RunState
  reports : List LoopReport
deriving DecidableEq

/-- The `for (let page = 1; page <= MAX_LOOPS; page++)` loop of
`searchRecentNews` over the successive successful page responses `pages`
(a fetch failure truncates `pages`).  Returns the final accumulator and the
number of pages consumed.  An empty page stops the loop without a report;
otherwise the page is scanned, its report pushed, and the loop stops when
`stopDueToOld` was raised or the page was short. -/
def runPagesAux (cfg : Config) (nrm : String → String) (lastChecked : Option Int) :
    Nat → Nat → List (List Item) → RunAcc → RunAcc × Nat
  | 0, _, _, acc => (acc, 0)
  | _ + 1, _, [], acc => (acc, 0)
  | budget + 1, pageNo, items :: rest, acc =>
    if items.isEmpty then (acc, 1)
    else
      let s := items.foldl (processItem cfg nrm lastChecked) (acc.rs, ⟨0, 0, 0⟩)
      let rep : LoopReport :=
        { call_no := pageNo
          fetched := items.length
          time_filtered := s.2.time_filtered
          title_include_fail := s.2.include_fail
          title_exclude_hit := s.2.exclude_hit
          title_include_pass := s.2.time_filtered - s.2.include_fail }
      let acc2 : RunAcc := ⟨s.1, acc.reports ++ [rep]⟩
      if s.1.stop then (acc2, 1)
      else if items.length < cfg.display_per_call then (acc2, 1)
      else
        let r := runPagesAux cfg nrm lastChecked budget (pageNo + 1) rest acc2
        (r.1, r.2 + 1)

/-- `pubTimesUTC.reduce((a,b) => a > b ? a : b)` guarded by emptiness. -/
def reduceMax : List Int → Option Int
  | [] => none
  | x :: xs => some (xs.foldl (fun a b => if a > b then a else b) x)

/-- `pubTimesUTC.reduce((a,b) => a < b ? a : b)` guarded by emptiness. -/
def reduceMin : List Int → Option Int
  | [] => none
  | x :: xs => some (xs.foldl (fun a b => if a < b then a else b) x)

/-- Result of `searchRecentNews` (the formatted label strings are not
modelled; `pagesRequested` records how many page responses were consumed). -/
structure SearchResult where
  collected : List Candidate
  loopReports : List LoopReport
  latestUTC : Option Int
  earliestUTC : Option Int
  pagesRequested : Nat
deriving DecidableEq

/-- `searchRecentNews`: read the watermark, run the page loop, and compute
the extreme publish instants over every watermark-passing item. -/
def searchRecentNews (cfg : Config) (nrm : String → String) (lastChecked : Option Int)
    (pages : List (List Item)) : SearchResult :=
  let r := runPagesAux cfg nrm lastChecked cfg.max_loops 1 pages ⟨initRunState, []⟩
  { collected := r.1.rs.collected
    loopReports := r.1.reports
    latestUTC := reduceMax r.1.rs.pubTimes
    earliestUTC := reduceMin r.1.rs.pubTimes
    pagesRequested := r.2 }

/- ───────────────────────── send gate and scheduled run ───────────────────────── -/

/-- `computeShouldSend`: in a force hour one candidate suffices, otherwise
the candidate count must reach `min_send_threshold`. -/
def computeShouldSend (nowKST : Int) (candidateCount : Nat) (minSend : Nat)
    (forceHours : List Int) : Bool :=
  if forceHours.contains (hourOfDay nowKST) then
    decide (1 ≤ candidateCount)
  else
    decide (minSend ≤ candidateCount)

/-- The two persisted KV values: `last_sent_target_iso` (slot instant) and
`last_checked_time_iso` (watermark instant). -/
structure KVState where
  lastSent : Option Int
  lastChecked : Option Int
deriving DecidableEq

/-- Aggregated admin report (the formatted digest of the `scheduled`
handler, with the numeric content in place of the rendered strings). -/
structure AdminReport where
  count : Nat
  sent : Bool
  totalLatest : Nat
  totalExcl : Nat
  totalPass : Nat
  loopReports : List LoopReport
  latestUTC : Option Int
  earliestUTC : Option Int
deriving DecidableEq

/-- Observable outcome of one `scheduled` invocation: the KV state after the
run, the primary-channel payload (the candidate list) when one was sent, and
the admin-channel report when one was sent. -/
structure Outcome where
  kv : KVState
  primary : Option (List Candidate)
  admin : Option AdminReport
deriving DecidableEq

/-- The `scheduled` handler: fetch and filter, skip everything when this
slot was already handled, apply the send gate, on a send persist the slot
identifier and the advanced watermark, and finally compose the admin
report. -/
def scheduled (cfg : Config) (nrm : String → String) (kv : KVState)
    (now : Int) (pages : List (List Item)) : Outcome :=
  let sr := searchRecentNews cfg nrm kv.lastChecked pages
  let target := computeTargetUTC now
  if kv.lastSent = some target then
    ⟨kv, none, none⟩
  else
    let shouldSend :=
      computeShouldSend (toKST now) sr.collected.length cfg.min_send_threshold cfg.force_hours
    let doSend := shouldSend && decide (0 < sr.collected.length)
    let kv2 : KVState :=
      if doSend then
        { lastSent := some target
          lastChecked :=
            match sr.latestUTC with
            | some m => some m
            | none => kv.lastChecked }
      else kv
    let totalLatest := sr.loopReports.foldl (fun s r => s + r.time_filtered) 0
    let totalExcl := sr.loopReports.foldl (fun s r => s + r.title_exclude_hit) 0
    let totalPass := sr.loopReports.foldl (fun s r => s + r.title_include_pass) 0
    let rep : AdminReport :=
      { count := sr.collected.length
        sent := doSend
        totalLatest := totalLatest
        totalExcl := totalExcl
        totalPass := totalPass
        loopReports := sr.loopReports
        latestUTC := sr.latestUTC
        earliestUTC := sr.earliestUTC }
    ⟨kv2, if doSend then some sr.collected else none, some rep⟩

/- ───────────────────────── list lemmas ───────────────────────── -/

theorem dropWhile_head_false {p : α → Bool} {l : List α} {a : α} {t : List α}
    (h : l.dropWhile p = a :: t) : p a = false := by
  induction l with
  | nil => simp at h
  | cons x xs ih =>
    rw [List.dropWhile_cons] at h
    by_cases hx : p x = true
    · exact ih (by simpa [hx] using h)
    · simp [hx] at h
      simpa [← h.1] using hx

theorem dropWhile_dropWhile {p : α → Bool} (l : List α) :
    (l.dropWhile p).dropWhile p = l.dropWhile p := by
  cases h : l.dropWhile p with
  | nil => rfl
  | cons a t =>
    rw [List.dropWhile_cons, dropWhile_head_false h]
    simp

theorem dropWhile_eq_append {p : α → Bool} (l : List α) :
    ∃ t, l = t ++ l.dropWhile p := by
  induction l with
  | nil => exact ⟨[], rfl⟩
  | cons x xs ih =>
    rw [List.dropWhile_cons]
    by_cases hx : p x = true
    · obtain ⟨t, ht⟩ := ih
      exact ⟨x :: t, by simp [hx, ← ht]⟩
    · exact ⟨[], by simp [hx]⟩

theorem trimChars_idem (l : List Char) : trimChars (trimChars l) = trimChars l := by
  set p := Char.isWhitespace
  set m := l.dropWhile p with hm
  set d := m.reverse.dropWhile p with hd
  have hA : d.reverse.dropWhile p = d.reverse := by
    obtain ⟨junk, hj⟩ := dropWhile_eq_append (p := p) m.reverse
    cases hrev : d.reverse with
    | nil => simp
    | cons a t =>
      have hm2 : m = a :: (t ++ junk.reverse) := by
        have : m.reverse = junk ++ d := by rw [hj, hd]
        have := congrArg List.reverse this
        simpa [hrev] using this
      have hpa : p a = false := dropWhile_head_false (l := l) (by rw [← hm, hm2])
      rw [List.dropWhile_cons, hpa]
      simp
  show (((trimChars l).dropWhile p).reverse.dropWhile p).reverse = trimChars l
  have htrim : trimChars l = d.reverse := rfl
  rw [htrim, hA, List.reverse_reverse]
  rw [hd, dropWhile_dropWhile]

theorem trimChars_of_no_ws {l : List Char} (h : ∀ e ∈ l, ¬e.isWhitespace) :
    trimChars l = l := by
  have h1 : l.dropWhile Char.isWhitespace = l := by
    cases l with
    | nil => rfl
    | cons a t =>
      rw [List.dropWhile_cons]
      simp [h a (by simp)]
  unfold trimChars
  rw [h1]
  cases hrev : l.reverse with
  | nil => simp_all
  | cons a t =>
    have ha : a ∈ l := by
      have : a ∈ l.reverse := by simp [hrev]
      simpa using this
    rw [List.dropWhile_cons]
    simp [h a ha, ← hrev]

theorem splitFirst_append [DecidableEq α] {c : α} {a : List α} (b : List α)
    (h : c ∉ a) : splitFirst c (a ++ c :: b) = some (a, b) := by
  induction a with
  | nil => simp [splitFirst]
  | cons x xs ih =>
    have hx : x ≠ c := by rintro rfl; exact h (by simp)
    have hxs : c ∉ xs := fun hc => h (by simp [hc])
    simp [splitFirst, hx, ih hxs]

theorem splitFirst_eq_some [DecidableEq α] {c : α} {l a b : List α}
    (h : splitFirst c l = some (a, b)) : c ∉ a ∧ l = a ++ c :: b := by
  induction l generalizing a b with
  | nil => simp [splitFirst] at h
  | cons x xs ih =>
    by_cases hx : x = c
    · simp [splitFirst, hx] at h
      obtain ⟨ha, hb⟩ := h
      subst ha hb
      simp [hx]
    · simp only [splitFirst, if_neg hx] at h
      cases hs : splitFirst c xs with
      | none => rw [hs] at h; simp at h
      | some ab =>
        rw [hs] at h
        simp at h
        obtain ⟨ha, hb⟩ := h
        obtain ⟨h1, h2⟩ := ih (show splitFirst c xs = some (ab.1, ab.2) by simp [hs])
        subst ha hb
        refine ⟨?_, by simp [h2]⟩
        simp only [List.mem_cons, not_or]
        exact ⟨Ne.symm hx, h1⟩

theorem splitFirst_eq_none [DecidableEq α] {c : α} {l : List α}
    (h : splitFirst c l = none) : c ∉ l := by
  induction l with
  | nil => simp
  | cons x xs ih =>
    by_cases hx : x = c
    · simp [splitFirst, hx] at h
    · simp only [splitFirst, if_neg hx] at h
      cases hs : splitFirst c xs with
      | none => simp [Ne.symm hx, ih hs]
      | some ab => rw [hs] at h; simp at h

theorem splitAll_ne_nil [DecidableEq α] (c : α) (l : List α) : splitAll c l ≠ [] := by
  induction l with
  | nil => simp [splitAll]
  | cons x xs _ =>
    by_cases hx : x = c
    · simp [splitAll, hx]
    · simp only [splitAll, if_neg hx]
      cases hs : splitAll c xs with
      | nil => simp
      | cons a rest => simp

theorem splitAll_of_not_mem [DecidableEq α] {c : α} {s : List α} (h : c ∉ s) :
    splitAll c s = [s] := by
  induction s with
  | nil => rfl
  | cons x xs ih =>
    have hx : x ≠ c := by rintro rfl; exact h (by simp)
    have hxs : c ∉ xs := fun hc => h (by simp [hc])
    simp [splitAll, hx, ih hxs]

theorem splitAll_append [DecidableEq α] {c : α} {s : List α} (t : List α)
    (h : c ∉ s) : splitAll c (s ++ c :: t) = s :: splitAll c t := by
  induction s with
  | nil => simp [splitAll]
  | cons x xs ih =>
    have hx : x ≠ c := by rintro rfl; exact h (by simp)
    have hxs : c ∉ xs := fun hc => h (by simp [hc])
    simp only [List.cons_append, splitAll, if_neg hx, List.append_eq]
    rw [ih hxs]

theorem mem_splitAll [DecidableEq α] {c : α} (l : List α) :
    ∀ seg ∈ splitAll c l, ∀ e ∈ seg, e ∈ l ∧ e ≠ c := by
  induction l with
  | nil =>
    intro seg hseg e he
    simp [splitAll] at hseg
    subst hseg
    simp at he
  | cons x xs ih =>
    intro seg hseg e he
    by_cases hx : x = c
    · simp only [splitAll, if_pos hx] at hseg
      rcases List.mem_cons.1 hseg with h1 | h1
      · subst h1; simp at he
      · obtain ⟨h2, h3⟩ := ih seg h1 e he
        exact ⟨by simp [h2], h3⟩
    · simp only [splitAll, if_neg hx] at hseg
      cases hs : splitAll c xs with
      | nil => exact absurd hs (splitAll_ne_nil c xs)
      | cons a rest =>
        rw [hs] at hseg
        rcases List.mem_cons.1 hseg with h1 | h1
        · subst h1
          rcases List.mem_cons.1 he with h2 | h2
          · subst h2; exact ⟨by simp, hx⟩
          · obtain ⟨h3, h4⟩ := ih a (by simp [hs]) e h2
            exact ⟨by simp [h3], h4⟩
        · obtain ⟨h3, h4⟩ := ih seg (by simp [hs, h1]) e he
          exact ⟨by simp [h3], h4⟩

theorem takeWhile_append_all {p : α → Bool} {l1 : List α} (l2 : List α)
    (h : ∀ x ∈ l1, p x = true) :
    (l1 ++ l2).takeWhile p = l1 ++ l2.takeWhile p := by
  induction l1 with
  | nil => simp
  | cons x xs ih =>
    simp only [List.cons_append, List.takeWhile_cons, h x (by simp), if_true]
    rw [ih (fun y hy => h y (by simp [hy]))]

theorem dropWhile_append_all {p : α → Bool} {l1 : List α} (l2 : List α)
    (h : ∀ x ∈ l1, p x = true) :
    (l1 ++ l2).dropWhile p = l2.dropWhile p := by
  induction l1 with
  | nil => simp
  | cons x xs ih =>
    simp only [List.cons_append, List.dropWhile_cons, h x (by simp), if_pos]
    exact ih (fun y hy => h y (by simp [hy]))

theorem takeWhile_all {p : α → Bool} {l : List α} (h : ∀ x ∈ l, p x = true) :
    l.takeWhile p = l := by
  have := takeWhile_append_all [] h
  simpa using this

theorem dropWhile_all {p : α → Bool} {l : List α} (h : ∀ x ∈ l, p x = true) :
    l.dropWhile p = [] := by
  have := dropWhile_append_all [] h
  simpa using this

/- ───────────────────────── query round trip ───────────────────────── -/

theorem parsePair_roundtrip {k v : List Char} (h : '=' ∉ k) :
    parsePair (serializePair (k, v)) = (k, v) := by
  unfold parsePair serializePair
  rw [splitFirst_append v h]

theorem mem_serializePair {p : List Char × List Char} {e : Char}
    (h : e ∈ serializePair p) : e ∈ p.1 ∨ e = '=' ∨ e ∈ p.2 := by
  unfold serializePair at h
  rcases List.mem_append.1 h with h1 | h1
  · exact Or.inl h1
  · rcases List.mem_cons.1 h1 with h2 | h2
    · exact Or.inr (Or.inl h2)
    · exact Or.inr (Or.inr h2)

theorem mem_serializeQuery {q : List (List Char × List Char)} {e : Char} :
    e ∈ serializeQuery q → e = '&' ∨ ∃ p ∈ q, e ∈ serializePair p := by
  unfold serializeQuery
  induction q with
  | nil => intro h; simp [joinSep] at h
  | cons a rest ih =>
    intro h
    cases rest with
    | nil =>
      simp only [List.map_cons, List.map_nil, joinSep] at h
      exact Or.inr ⟨a, by simp, h⟩
    | cons b rest2 =>
      simp only [List.map_cons, joinSep] at h
      rcases List.mem_append.1 h with h1 | h1
      · exact Or.inr ⟨a, by simp, h1⟩
      · rcases List.mem_cons.1 h1 with h2 | h2
        · exact Or.inl h2
        · rcases ih (by simpa [joinSep] using h2) with h3 | ⟨p, hp, hmem⟩
          · exact Or.inl h3
          · exact Or.inr ⟨p, by simp [hp], hmem⟩

theorem serializePair_ne_nil (p : List Char × List Char) : serializePair p ≠ [] := by
  unfold serializePair
  simp

theorem parseQuery_roundtrip {q : List (List Char × List Char)}
    (h : ∀ p ∈ q, '&' ∉ p.1 ∧ '=' ∉ p.1 ∧ '&' ∉ p.2) (hne : q ≠ []) :
    parseQuery (serializeQuery q) = q := by
  induction q with
  | nil => exact absurd rfl hne
  | cons a rest ih =>
    have hamp : '&' ∉ serializePair a := by
      intro hm
      rcases mem_serializePair hm with h1 | h1 | h1
      · exact (h a (by simp)).1 h1
      · exact absurd h1 (by decide)
      · exact (h a (by simp)).2.2 h1
    cases rest with
    | nil =>
      show parseQuery (joinSep '&' [serializePair a]) = [a]
      simp only [joinSep]
      unfold parseQuery
      rw [splitAll_of_not_mem hamp]
      simp only [List.filter_cons, List.filter_nil]
      rw [if_pos (by simpa using serializePair_ne_nil a)]
      simp only [List.map_cons, List.map_nil]
      have := parsePair_roundtrip (k := a.1) (v := a.2) (h a (by simp)).2.1
      simp only [Prod.mk.eta] at this
      rw [this]
    | cons b rest2 =>
      have hser : serializeQuery (a :: b :: rest2)
          = serializePair a ++ '&' :: serializeQuery (b :: rest2) := by
        show joinSep '&' (serializePair a :: (b :: rest2).map serializePair)
          = serializePair a ++ '&' :: joinSep '&' ((b :: rest2).map serializePair)
        simp [joinSep]
      rw [hser]
      unfold parseQuery
      rw [splitAll_append _ hamp]
      simp only [List.filter_cons]
      rw [if_pos (by simpa using serializePair_ne_nil a)]
      simp only [List.map_cons]
      have h1 := parsePair_roundtrip (k := a.1) (v := a.2) (h a (by simp)).2.1
      simp only [Prod.mk.eta] at h1
      rw [h1]
      have h2 := ih (fun p hp => h p (by simp [hp])) (by simp)
      unfold parseQuery at h2
      rw [h2]

/- ───────────────────────── URL well-formedness ───────────────────────── -/

/-- Invariants every parser output satisfies; exactly what the serializer
needs for the round trip. -/
def wfUrl (u : Url) : Prop :=
  u.scheme ≠ [] ∧ ':' ∉ u.scheme ∧ (∀ e ∈ u.scheme, e.isWhitespace = false) ∧
  '?' ∉ u.hostpath ∧ '#' ∉ u.hostpath ∧ (∀ e ∈ u.hostpath, e.isWhitespace = false) ∧
  (∀ p ∈ u.query, '&' ∉ p.1 ∧ '=' ∉ p.1 ∧ '#' ∉ p.1 ∧ (∀ e ∈ p.1, e.isWhitespace = false)
      ∧ '&' ∉ p.2 ∧ '#' ∉ p.2 ∧ (∀ e ∈ p.2, e.isWhitespace = false)) ∧
  (∀ f, u.frag = some f → ∀ e ∈ f, e.isWhitespace = false)

theorem mem_parseQuery {l : List Char} {p : List Char × List Char}
    (h : p ∈ parseQuery l) :
    '=' ∉ p.1 ∧ (∀ e ∈ p.1, e ∈ l ∧ e ≠ '&') ∧ (∀ e ∈ p.2, e ∈ l ∧ e ≠ '&') := by
  unfold parseQuery at h
  obtain ⟨seg, hseg, hpair⟩ := List.mem_map.1 h
  have hsplit := (List.mem_filter.1 hseg).1
  have hall := mem_splitAll l seg hsplit
  unfold parsePair at hpair
  cases hsf : splitFirst '=' seg with
  | none =>
    rw [hsf] at hpair
    subst hpair
    exact ⟨splitFirst_eq_none hsf, hall, by intro e he; simp at he⟩
  | some kv =>
    rw [hsf] at hpair
    subst hpair
    obtain ⟨hk, hseq⟩ := splitFirst_eq_some (show splitFirst '=' seg = some (kv.1, kv.2) by simp [hsf])
    refine ⟨hk, ?_, ?_⟩
    · intro e he
      exact hall e (by rw [hseq]; simp [he])
    · intro e he
      exact hall e (by rw [hseq]; simp [he])

theorem parseUrlCore_wf {l : List Char} {u : Url}
    (h : parseUrlCore l = some u) (hws : ∀ e ∈ l, e.isWhitespace = false) :
    wfUrl u := by
  unfold parseUrlCore at h
  split at h
  · simp at h
  · rename_i sch rest hsf
    obtain ⟨hcolon, hleq⟩ := splitFirst_eq_some hsf
    split at h
    · simp at h
    · rename_i hemp
      cases rest with
      | nil => simp at h
      | cons c1 r1 =>
        cases r1 with
        | nil => simp at h
        | cons c2 rest2 =>
          dsimp only at h
          by_cases hc1 : c1 = '/'
          · subst hc1
            rw [if_pos rfl] at h
            by_cases hc2 : c2 = '/'
            · subst hc2
              rw [if_pos rfl] at h
              have hschsub : ∀ e ∈ sch, e ∈ l := by
                intro e he; rw [hleq]; simp [he]
              have hrest2 : ∀ e ∈ rest2, e ∈ l := by
                intro e he; rw [hleq]; simp [he]
              have hschemeNe : sch ≠ [] := by
                intro hn; rw [hn] at hemp; simp at hemp
              have hhp : ∀ x ∈ rest2.takeWhile (fun c => !(c = '?' || c = '#')),
                  x ≠ '?' ∧ x ≠ '#' ∧ x ∈ rest2 := by
                intro x hx
                have hpx := List.mem_takeWhile_imp hx
                have hxm : x ∈ rest2 := (List.takeWhile_sublist _).subset hx
                refine ⟨?_, ?_, hxm⟩
                · intro hq; rw [hq] at hpx; simp at hpx
                · intro hq; rw [hq] at hpx; simp at hpx
              cases hdw : rest2.dropWhile (fun c => !(c = '?' || c = '#')) with
              | nil =>
                rw [hdw] at h
                dsimp only at h
                simp only [Option.some.injEq] at h
                subst h
                refine ⟨hschemeNe, hcolon, ?_, ?_, ?_, ?_, ?_, ?_⟩
                · intro e he; exact hws e (hschsub e he)
                · intro hq; exact absurd rfl (hhp _ hq).1
                · intro hq; exact absurd rfl (hhp _ hq).2.1
                · intro e he; exact hws e (hrest2 e (hhp e he).2.2)
                · intro p hp; simp at hp
                · intro f hf; simp at hf
              | cons d rest3 =>
                rw [hdw] at h
                dsimp only at h
                have hdsub : ∀ e ∈ d :: rest3, e ∈ rest2 := by
                  intro e he
                  have hm : e ∈ rest2.dropWhile (fun c => !(c = '?' || c = '#')) := by
                    rw [hdw]; exact he
                  exact (List.dropWhile_sublist _).subset hm
                by_cases hd : d = '?'
                · subst hd
                  rw [if_pos rfl] at h
                  have hqsub : ∀ e ∈ rest3.takeWhile (fun c => !(c = '#')),
                      e ∈ rest2 ∧ e ≠ '#' := by
                    intro e he
                    have hpe := List.mem_takeWhile_imp he
                    have hem : e ∈ rest3 := (List.takeWhile_sublist _).subset he
                    refine ⟨hdsub e (by simp [hem]), ?_⟩
                    intro hq; rw [hq] at hpe; simp at hpe
                  have hq_wf : ∀ p ∈ parseQuery (rest3.takeWhile (fun c => !(c = '#'))),
                      '&' ∉ p.1 ∧ '=' ∉ p.1 ∧ '#' ∉ p.1 ∧ (∀ e ∈ p.1, e.isWhitespace = false)
                        ∧ '&' ∉ p.2 ∧ '#' ∉ p.2 ∧ (∀ e ∈ p.2, e.isWhitespace = false) := by
                    intro p hp
                    obtain ⟨hk1, hk2, hk3⟩ := mem_parseQuery hp
                    refine ⟨?_, hk1, ?_, ?_, ?_, ?_, ?_⟩
                    · intro hm; exact (hk2 '&' hm).2 rfl
                    · intro hm; exact (hqsub _ (hk2 '#' hm).1).2 rfl
                    · intro e he; exact hws e (hrest2 e (hqsub e (hk2 e he).1).1)
                    · intro hm; exact (hk3 '&' hm).2 rfl
                    · intro hm; exact (hqsub _ (hk3 '#' hm).1).2 rfl
                    · intro e he; exact hws e (hrest2 e (hqsub e (hk3 e he).1).1)
                  have hfr : ∀ fr, rest3.dropWhile (fun c => !(c = '#')) = '#' :: fr →
                      ∀ e ∈ fr, e.isWhitespace = false := by
                    intro fr hdw2 e he
                    have hm : e ∈ rest3.dropWhile (fun c => !(c = '#')) := by
                      rw [hdw2]; simp [he]
                    have hm2 : e ∈ rest3 := (List.dropWhile_sublist _).subset hm
                    exact hws e (hrest2 e (hdsub e (by simp [hm2])))
                  cases hdw2 : rest3.dropWhile (fun c => !(c = '#')) with
                  | nil =>
                    rw [hdw2] at h
                    dsimp only at h
                    simp only [Option.some.injEq] at h
                    subst h
                    refine ⟨hschemeNe, hcolon, ?_, ?_, ?_, ?_, hq_wf, ?_⟩
                    · intro e he; exact hws e (hschsub e he)
                    · intro hq; exact absurd rfl (hhp _ hq).1
                    · intro hq; exact absurd rfl (hhp _ hq).2.1
                    · intro e he; exact hws e (hrest2 e (hhp e he).2.2)
                    · intro f hf; simp at hf
                  | cons e1 er1 =>
                    rw [hdw2] at h
                    dsimp only at h
                    by_cases he1 : e1 = '#'
                    · subst he1
                      rw [if_pos rfl] at h
                      simp only [Option.some.injEq] at h
                      subst h
                      refine ⟨hschemeNe, hcolon, ?_, ?_, ?_, ?_, hq_wf, ?_⟩
                      · intro e he; exact hws e (hschsub e he)
                      · intro hq; exact absurd rfl (hhp _ hq).1
                      · intro hq; exact absurd rfl (hhp _ hq).2.1
                      · intro e he; exact hws e (hrest2 e (hhp e he).2.2)
                      · intro f hf
                        simp only [Option.some.injEq] at hf
                        subst hf
                        exact hfr _ hdw2
                    · rw [if_neg he1] at h
                      simp only [Option.some.injEq] at h
                      subst h
                      refine ⟨hschemeNe, hcolon, ?_, ?_, ?_, ?_, hq_wf, ?_⟩
                      · intro e he; exact hws e (hschsub e he)
                      · intro hq; exact absurd rfl (hhp _ hq).1
                      · intro hq; exact absurd rfl (hhp _ hq).2.1
                      · intro e he; exact hws e (hrest2 e (hhp e he).2.2)
                      · intro f hf; simp at hf
                · rw [if_neg hd] at h
                  by_cases hdh : d = '#'
                  · subst hdh
                    rw [if_pos rfl] at h
                    simp only [Option.some.injEq] at h
                    subst h
                    refine ⟨hschemeNe, hcolon, ?_, ?_, ?_, ?_, ?_, ?_⟩
                    · intro e he; exact hws e (hschsub e he)
                    · intro hq; exact absurd rfl (hhp _ hq).1
                    · intro hq; exact absurd rfl (hhp _ hq).2.1
                    · intro e he; exact hws e (hrest2 e (hhp e he).2.2)
                    · intro p hp; simp at hp
                    · intro f hf e he
                      simp only [Option.some.injEq] at hf
                      subst hf
                      exact hws e (hrest2 e (hdsub e (by simp [he])))
                  · rw [if_neg hdh] at h
                    simp at h
            · rw [if_neg hc2] at h
              simp at h
          · rw [if_neg hc1] at h
            simp at h

theorem serializeQuery_no_hash {q : List (List Char × List Char)}
    (h : ∀ p ∈ q, '#' ∉ p.1 ∧ '#' ∉ p.2) : '#' ∉ serializeQuery q := by
  intro hm
  rcases mem_serializeQuery hm with h1 | ⟨p, hp, hmem⟩
  · exact absurd h1 (by decide)
  · rcases mem_serializePair hmem with h2 | h2 | h2
    · exact (h p hp).1 h2
    · exact absurd h2 (by decide)
    · exact (h p hp).2 h2

theorem parseUrlCore_serialize {u : Url} (h : wfUrl u) :
    parseUrlCore (serializeChars u) = some u := by
  obtain ⟨sch, hp, q, fr⟩ := u
  obtain ⟨h1, h2, _h3, h4, h5, _h6, h7, _h8⟩ := h
  have hallp : ∀ x ∈ hp, (fun c => !(c = '?' || c = '#')) x = true := by
    intro x hx
    have hx1 : x ≠ '?' := fun hh => h4 (hh ▸ hx)
    have hx2 : x ≠ '#' := fun hh => h5 (hh ▸ hx)
    simp [hx1, hx2]
  have hne : ¬sch.isEmpty = true := by simp [List.isEmpty_iff, h1]
  cases q with
  | nil =>
    cases fr with
    | none =>
      have hser : serializeChars ⟨sch, hp, [], none⟩ = sch ++ ':' :: '/' :: '/' :: hp := by
        simp [serializeChars]
      rw [hser]
      unfold parseUrlCore
      rw [splitFirst_append _ h2]
      dsimp only
      rw [if_neg hne, if_pos rfl, if_pos rfl]
      rw [dropWhile_all hallp]
      dsimp only
      rw [takeWhile_all hallp]
    | some f =>
      have hser : serializeChars ⟨sch, hp, [], some f⟩
          = sch ++ ':' :: '/' :: '/' :: (hp ++ '#' :: f) := by
        simp [serializeChars]
      rw [hser]
      unfold parseUrlCore
      rw [splitFirst_append _ h2]
      dsimp only
      rw [if_neg hne, if_pos rfl, if_pos rfl]
      rw [dropWhile_append_all _ hallp, List.dropWhile_cons, if_neg (by decide)]
      dsimp only
      rw [if_neg (by decide), if_pos rfl]
      rw [takeWhile_append_all _ hallp, List.takeWhile_cons, if_neg (by decide),
        List.append_nil]
  | cons q0 qrest =>
    have hqwf : ∀ p ∈ q0 :: qrest, '&' ∉ p.1 ∧ '=' ∉ p.1 ∧ '&' ∉ p.2 := by
      intro p hpmem
      obtain ⟨hw1, hw2, _, _, hw5, _, _⟩ := h7 p hpmem
      exact ⟨hw1, hw2, hw5⟩
    have hhash : '#' ∉ serializeQuery (q0 :: qrest) := by
      refine serializeQuery_no_hash ?_
      intro p hpmem
      obtain ⟨_, _, hw3, _, _, hw6, _⟩ := h7 p hpmem
      exact ⟨hw3, hw6⟩
    have hq2 : ∀ x ∈ serializeQuery (q0 :: qrest), (fun c => !(c = '#')) x = true := by
      intro x hx
      have hxne : x ≠ '#' := fun hh => hhash (hh ▸ hx)
      simp [hxne]
    have hqrt : parseQuery (serializeQuery (q0 :: qrest)) = q0 :: qrest :=
      parseQuery_roundtrip hqwf (by simp)
    cases fr with
    | none =>
      have hser : serializeChars ⟨sch, hp, q0 :: qrest, none⟩
          = sch ++ ':' :: '/' :: '/' :: (hp ++ '?' :: serializeQuery (q0 :: qrest)) := by
        simp [serializeChars]
      rw [hser]
      unfold parseUrlCore
      rw [splitFirst_append _ h2]
      dsimp only
      rw [if_neg hne, if_pos rfl, if_pos rfl]
      rw [dropWhile_append_all _ hallp, List.dropWhile_cons, if_neg (by decide)]
      dsimp only
      rw [if_pos rfl]
      rw [dropWhile_all hq2]
      dsimp only
      rw [takeWhile_append_all _ hallp, List.takeWhile_cons, if_neg (by decide),
        List.append_nil]
      rw [takeWhile_all hq2, hqrt]
    | some f =>
      have hser : serializeChars ⟨sch, hp, q0 :: qrest, some f⟩
          = sch ++ ':' :: '/' :: '/' ::
              (hp ++ '?' :: (serializeQuery (q0 :: qrest) ++ '#' :: f)) := by
        simp [serializeChars]
      rw [hser]
      unfold parseUrlCore
      rw [splitFirst_append _ h2]
      dsimp only
      rw [if_neg hne, if_pos rfl, if_pos rfl]
      rw [dropWhile_append_all _ hallp, List.dropWhile_cons, if_neg (by decide)]
      dsimp only
      rw [if_pos rfl]
      rw [dropWhile_append_all _ hq2, List.dropWhile_cons, if_neg (by decide)]
      dsimp only
      rw [if_pos rfl]
      rw [takeWhile_append_all _ hallp, List.takeWhile_cons, if_neg (by decide),
        List.append_nil]
      rw [takeWhile_append_all _ hq2, List.takeWhile_cons, if_neg (by decide),
        List.append_nil]
      rw [hqrt]

theorem serializeChars_no_ws {u : Url} (h : wfUrl u) :
    ∀ e ∈ serializeChars u, e.isWhitespace = false := by
  obtain ⟨sch, hp, q, fr⟩ := u
  obtain ⟨_, _, h3, _, _, h6, h7, h8⟩ := h
  intro e he
  unfold serializeChars at he
  rcases List.mem_append.1 he with h12 | hF
  · rcases List.mem_append.1 h12 with hA | hQ
    · rcases List.mem_append.1 hA with hs | hc
      · exact h3 e hs
      · simp only [List.mem_cons] at hc
        rcases hc with rfl | rfl | rfl | hhp
        · decide
        · decide
        · decide
        · exact h6 e hhp
    · by_cases hq : (q : List (List Char × List Char)).isEmpty
      · rw [if_pos hq] at hQ; simp at hQ
      · rw [if_neg hq] at hQ
        rcases List.mem_cons.1 hQ with rfl | hsq
        · decide
        · rcases mem_serializeQuery hsq with rfl | ⟨p, hpm, hmem⟩
          · decide
          · rcases mem_serializePair hmem with hm | rfl | hm
            · exact (h7 p hpm).2.2.2.1 e hm
            · decide
            · exact (h7 p hpm).2.2.2.2.2.2 e hm
  · cases fr with
    | none => simp at hF
    | some f =>
      rcases List.mem_cons.1 hF with rfl | hm
      · decide
      · exact h8 f rfl e hm

theorem wf_normalizeUrlCore {u : Url} (h : wfUrl u) : wfUrl (normalizeUrlCore u) := by
  obtain ⟨h1, h2, h3, h4, h5, h6, h7, h8⟩ := h
  refine ⟨?_, ?_, ?_, h4, h5, h6, ?_, h8⟩
  · show ("https".toList : List Char) ≠ []
    decide
  · show ':' ∉ "https".toList
    decide
  · show ∀ e ∈ "https".toList, e.isWhitespace = false
    decide
  · intro p hp
    exact h7 p (List.mem_filter.1 hp).1

theorem normalizeUrlCore_idem (u : Url) :
    normalizeUrlCore (normalizeUrlCore u) = normalizeUrlCore u := by
  unfold normalizeUrlCore
  simp [List.filter_filter]

theorem parseUrl_mk (l : List Char) :
    parseUrl (String.mk l)
      = if (trimChars l).any Char.isWhitespace then none
        else parseUrlCore (trimChars l) := rfl

theorem parseUrl_wf {s : String} {u : Url} (h : parseUrl s = some u) : wfUrl u := by
  have h2 : (if (trimChars s.toList).any Char.isWhitespace then none
      else parseUrlCore (trimChars s.toList)) = some u := h
  split at h2
  · simp at h2
  · rename_i hg
    refine parseUrlCore_wf h2 ?_
    intro e he
    by_contra hne
    have : (trimChars s.toList).any Char.isWhitespace = true :=
      List.any_eq_true.2 ⟨e, he, by simpa using hne⟩
    exact hg this

theorem parseUrl_serialize {u : Url} (h : wfUrl u) :
    parseUrl (String.mk (serializeChars u)) = some u := by
  have hws := serializeChars_no_ws h
  have ht : trimChars (serializeChars u) = serializeChars u :=
    trimChars_of_no_ws (fun e he => by simp [hws e he])
  rw [parseUrl_mk, ht]
  have hany : (serializeChars u).any Char.isWhitespace = false := by
    rw [List.any_eq_false]
    intro e he
    simp [hws e he]
  rw [if_neg (by simp [hany])]
  exact parseUrlCore_serialize h

theorem normalizeUrl_idem (s : String) :
    normalizeUrl (normalizeUrl s) = normalizeUrl s := by
  cases h : parseUrl s with
  | some u =>
    have hwf2 := wf_normalizeUrlCore (parseUrl_wf h)
    have h1 : normalizeUrl s = String.mk (serializeChars (normalizeUrlCore u)) := by
      unfold normalizeUrl; rw [h]
    rw [h1]
    unfold normalizeUrl
    rw [parseUrl_serialize hwf2]
    dsimp only
    rw [normalizeUrlCore_idem]
  | none =>
    have h1 : normalizeUrl s = String.mk (trimChars s.toList) := by
      unfold normalizeUrl; rw [h]
    rw [h1]
    have h2 : parseUrl (String.mk (trimChars s.toList)) = none := by
      rw [parseUrl_mk]
      show (if (trimChars (trimChars s.toList)).any Char.isWhitespace = true then none
        else parseUrlCore (trimChars (trimChars s.toList))) = none
      rw [trimChars_idem]
      exact h
    unfold normalizeUrl
    rw [h2]
    show String.mk (trimChars (trimChars s.toList)) = String.mk (trimChars s.toList)
    rw [trimChars_idem]

/- ───────────────────────── pipeline lemmas ───────────────────────── -/

theorem processItem_fst (cfg : Config) (nrm : String → String) (w : Option Int)
    (rs : RunState) (pc pc2 : PageCounters) (it : Item) :
    (processItem cfg nrm w (rs, pc) it).1 = (processItem cfg nrm w (rs, pc2) it).1 := by
  unfold processItem
  cases hp : it.pub with
  | none => rfl
  | some pub =>
    dsimp only
    split_ifs <;> rfl

theorem stepRS_eq (cfg : Config) (nrm : String → String) (w : Option Int)
    (rs : RunState) (it : Item) :
    stepRS cfg nrm w rs it =
      match it.pub with
      | none => rs
      | some pub =>
        if isOld w pub then { rs with stop := true }
        else if !(cfg.include_keywords.isEmpty
            || cfg.include_keywords.any (titleMatches nrm (nrm it.title))) then
          { rs with pubTimes := rs.pubTimes ++ [pub] }
        else if cfg.exclude_keywords.any (titleMatches nrm (nrm it.title)) then
          { rs with pubTimes := rs.pubTimes ++ [pub] }
        else if rs.seen.contains (itemLink it) then
          { rs with pubTimes := rs.pubTimes ++ [pub] }
        else
          { rs with seen := rs.seen ++ [itemLink it],
                    collected := rs.collected ++ [⟨it.title, itemLink it, pub⟩],
                    pubTimes := rs.pubTimes ++ [pub] } := by
  unfold stepRS processItem
  cases hp : it.pub with
  | none => rfl
  | some pub =>
    dsimp only
    split_ifs <;> rfl

theorem foldl_processItem_fst (cfg : Config) (nrm : String → String) (w : Option Int) :
    ∀ (its : List Item) (rs : RunState) (pc : PageCounters),
      (its.foldl (processItem cfg nrm w) (rs, pc)).1
        = its.foldl (stepRS cfg nrm w) rs := by
  intro its
  induction its with
  | nil => intro rs pc; rfl
  | cons it rest ih =>
    intro rs pc
    rw [List.foldl_cons, List.foldl_cons]
    calc (rest.foldl (processItem cfg nrm w) (processItem cfg nrm w (rs, pc) it)).1
        = rest.foldl (stepRS cfg nrm w) (processItem cfg nrm w (rs, pc) it).1 := ih _ _
      _ = rest.foldl (stepRS cfg nrm w) (stepRS cfg nrm w rs it) := by
          rw [show stepRS cfg nrm w rs it = (processItem cfg nrm w (rs, pc) it).1 from
            processItem_fst cfg nrm w rs ⟨0, 0, 0⟩ pc it]

theorem runPagesAux_rs (cfg : Config) (nrm : String → String) (w : Option Int) :
    ∀ (budget pageNo : Nat) (pages : List (List Item)) (acc : RunAcc),
      (runPagesAux cfg nrm w budget pageNo pages acc).1.rs
        = ((pages.take (runPagesAux cfg nrm w budget pageNo pages acc).2).flatten).foldl
            (stepRS cfg nrm w) acc.rs := by
  intro budget
  induction budget with
  | zero => intro pageNo pages acc; simp [runPagesAux]
  | succ n ih =>
    intro pageNo pages acc
    cases pages with
    | nil => simp [runPagesAux]
    | cons items rest =>
      simp only [runPagesAux]
      by_cases hemp : items.isEmpty
      · rw [if_pos hemp]
        have hnil : items = [] := List.isEmpty_iff.1 hemp
        subst hnil
        simp
      · rw [if_neg hemp]
        split_ifs with hstop hshort
        · rw [foldl_processItem_fst]
          simp
        · rw [foldl_processItem_fst]
          simp
        · rw [List.take_succ_cons]
          simp only [List.flatten_cons, List.foldl_append]
          rw [← foldl_processItem_fst cfg nrm w items acc.rs ⟨0, 0, 0⟩]
          exact ih (pageNo + 1) rest _

/- ───────────────────────── claim-side candidate selection ───────────────────────── -/

/-- The candidate-selection rule exactly as the spec states it (property §8 /
claim C1): walk the fetched items in order, keeping the list of canonical
links already accepted; accept an item iff its parsed publish instant is
strictly newer than the watermark, the include rule passes (empty list or
some normalized include term is a substring of the normalized title), no
normalized exclude term is a substring, and its canonical URL was not
accepted before. -/
def collectSpec (cfg : Config) (nrm : String → String) (w : Int) :
    List String → List Item → List Candidate
  | _, [] => []
  | prior, it :: rest =>
    match it.pub with
    | none => collectSpec cfg nrm w prior rest
    | some pub =>
      if decide (w < pub)
          && (cfg.include_keywords.isEmpty
            || cfg.include_keywords.any (titleMatches nrm (nrm it.title)))
          && !(cfg.exclude_keywords.any (titleMatches nrm (nrm it.title)))
          && !(prior.contains (itemLink it)) then
        ⟨it.title, itemLink it, pub⟩ :: collectSpec cfg nrm w (prior ++ [itemLink it]) rest
      else
        collectSpec cfg nrm w prior rest

theorem foldl_stepRS_collectSpec (cfg : Config) (nrm : String → String) (w : Int) :
    ∀ (its : List Item) (rs : RunState),
      rs.seen = rs.collected.map Candidate.link →
      (its.foldl (stepRS cfg nrm (some w)) rs).collected
          = rs.collected ++ collectSpec cfg nrm w rs.seen its
        ∧ (its.foldl (stepRS cfg nrm (some w)) rs).seen
          = ((its.foldl (stepRS cfg nrm (some w)) rs).collected).map Candidate.link := by
  intro its
  induction its with
  | nil =>
    intro rs hinv
    exact ⟨by simp [collectSpec], hinv⟩
  | cons it rest ih =>
    intro rs hinv
    rw [List.foldl_cons]
    cases hp : it.pub with
    | none =>
      have hstep : stepRS cfg nrm (some w) rs it = rs := by
        rw [stepRS_eq, hp]
      have hspec : collectSpec cfg nrm w rs.seen (it :: rest)
          = collectSpec cfg nrm w rs.seen rest := by
        rw [collectSpec, hp]
      rw [hstep, hspec]
      exact ih rs hinv
    | some pub =>
      by_cases hold : pub ≤ w
      · have holdb : isOld (some w) pub = true := by simp [isOld, hold]
        have hdec : decide (w < pub) = false := by simp [not_lt.2 hold]
        have hstep : stepRS cfg nrm (some w) rs it = { rs with stop := true } := by
          rw [stepRS_eq, hp]
          dsimp only
          rw [if_pos holdb]
        have hspec : collectSpec cfg nrm w rs.seen (it :: rest)
            = collectSpec cfg nrm w rs.seen rest := by
          rw [collectSpec, hp]
          dsimp only
          rw [if_neg (by rw [hdec]; simp)]
        rw [hstep, hspec]
        exact ih { rs with stop := true } hinv
      · have holdb : isOld (some w) pub = false := by simp [isOld, hold]
        have hdec : decide (w < pub) = true := by simp [lt_of_not_le hold]
        by_cases hinc : (cfg.include_keywords.isEmpty
            || cfg.include_keywords.any (titleMatches nrm (nrm it.title))) = true
        · by_cases hexc : cfg.exclude_keywords.any (titleMatches nrm (nrm it.title)) = true
          · -- exclude keyword hit: dropped, publish instant still recorded
            have hstep : stepRS cfg nrm (some w) rs it
                = { rs with pubTimes := rs.pubTimes ++ [pub] } := by
              rw [stepRS_eq, hp]
              dsimp only
              rw [if_neg (by rw [holdb]; simp), if_neg (by rw [hinc]; simp), if_pos hexc]
            have hcond : (decide (w < pub)
                && (cfg.include_keywords.isEmpty
                  || cfg.include_keywords.any (titleMatches nrm (nrm it.title)))
                && !(cfg.exclude_keywords.any (titleMatches nrm (nrm it.title)))
                && !(rs.seen.contains (itemLink it))) = false := by
              rw [hexc]
              simp
            have hspec : collectSpec cfg nrm w rs.seen (it :: rest)
                = collectSpec cfg nrm w rs.seen rest := by
              rw [collectSpec, hp]
              dsimp only
              rw [if_neg (by rw [hcond]; simp)]
            rw [hstep, hspec]
            exact ih _ hinv
          · have hexcb : cfg.exclude_keywords.any (titleMatches nrm (nrm it.title)) = false := by
              simpa using hexc
            by_cases hseen : rs.seen.contains (itemLink it) = true
            · -- duplicate canonical link: dropped
              have hstep : stepRS cfg nrm (some w) rs it
                  = { rs with pubTimes := rs.pubTimes ++ [pub] } := by
                rw [stepRS_eq, hp]
                dsimp only
                rw [if_neg (by rw [holdb]; simp), if_neg (by rw [hinc]; simp),
                  if_neg (by rw [hexcb]; simp), if_pos hseen]
              have hcond : (decide (w < pub)
                  && (cfg.include_keywords.isEmpty
                    || cfg.include_keywords.any (titleMatches nrm (nrm it.title)))
                  && !(cfg.exclude_keywords.any (titleMatches nrm (nrm it.title)))
                  && !(rs.seen.contains (itemLink it))) = false := by
                rw [hseen]
                simp
              have hspec : collectSpec cfg nrm w rs.seen (it :: rest)
                  = collectSpec cfg nrm w rs.seen rest := by
                rw [collectSpec, hp]
                dsimp only
                rw [if_neg (by rw [hcond]; simp)]
              rw [hstep, hspec]
              exact ih _ hinv
            · -- accepted
              have hseenb : rs.seen.contains (itemLink it) = false := by
                simpa using hseen
              have hstep : stepRS cfg nrm (some w) rs it
                  = { rs with seen := rs.seen ++ [itemLink it],
                              collected := rs.collected ++ [⟨it.title, itemLink it, pub⟩],
                              pubTimes := rs.pubTimes ++ [pub] } := by
                rw [stepRS_eq, hp]
                dsimp only
                rw [if_neg (by rw [holdb]; simp), if_neg (by rw [hinc]; simp),
                  if_neg (by rw [hexcb]; simp), if_neg (by rw [hseenb]; simp)]
              have hcond : (decide (w < pub)
                  && (cfg.include_keywords.isEmpty
                    || cfg.include_keywords.any (titleMatches nrm (nrm it.title)))
                  && !(cfg.exclude_keywords.any (titleMatches nrm (nrm it.title)))
                  && !(rs.seen.contains (itemLink it))) = true := by
                rw [hdec, hinc, hexcb, hseenb]
                rfl
              have hspec : collectSpec cfg nrm w rs.seen (it :: rest)
                  = ⟨it.title, itemLink it, pub⟩
                      :: collectSpec cfg nrm w (rs.seen ++ [itemLink it]) rest := by
                rw [collectSpec, hp]
                dsimp only
                rw [if_pos hcond]
              rw [hspec]
              obtain ⟨ha, hb⟩ := ih (stepRS cfg nrm (some w) rs it) (by
                rw [hstep]
                simp [hinv])
              refine ⟨?_, hb⟩
              rw [ha, hstep]
              simp
        · -- include filter fails
          have hincb : (cfg.include_keywords.isEmpty
              || cfg.include_keywords.any (titleMatches nrm (nrm it.title))) = false := by
            simpa using hinc
          have hstep : stepRS cfg nrm (some w) rs it
              = { rs with pubTimes := rs.pubTimes ++ [pub] } := by
            rw [stepRS_eq, hp]
            dsimp only
            rw [if_neg (by rw [holdb]; simp), if_pos (by rw [hincb]; simp)]
          have hcond : (decide (w < pub)
              && (cfg.include_keywords.isEmpty
                || cfg.include_keywords.any (titleMatches nrm (nrm it.title)))
              && !(cfg.exclude_keywords.any (titleMatches nrm (nrm it.title)))
              && !(rs.seen.contains (itemLink it))) = false := by
            rw [hincb]
            simp
          have hspec : collectSpec cfg nrm w rs.seen (it :: rest)
              = collectSpec cfg nrm w rs.seen rest := by
            rw [collectSpec, hp]
            dsimp only
            rw [if_neg (by rw [hcond]; simp)]
          rw [hstep, hspec]
          exact ih _ hinv

/- ───────────────────────── run-state invariants ───────────────────────── -/

/-- Invariant tying `collected` to the recorded watermark-passing publish
instants: every accepted candidate's instant was recorded, and every
recorded instant beats the watermark. -/
def goodRS (w : Option Int) (rs : RunState) : Prop :=
  (∀ c ∈ rs.collected, c.pubUTC ∈ rs.pubTimes)
  ∧ (∀ p ∈ rs.pubTimes, ∀ t, w = some t → t < p)

theorem stepRS_good (cfg : Config) (nrm : String → String) (w : Option Int)
    (rs : RunState) (it : Item) (h : goodRS w rs) : goodRS w (stepRS cfg nrm w rs it) := by
  obtain ⟨h1, h2⟩ := h
  rw [stepRS_eq]
  cases hp : it.pub with
  | none => exact ⟨h1, h2⟩
  | some pub =>
    dsimp only
    by_cases hold : isOld w pub = true
    · rw [if_pos hold]
      exact ⟨h1, h2⟩
    · rw [if_neg hold]
      have hlt : ∀ t, w = some t → t < pub := by
        intro t ht
        subst ht
        simp only [isOld] at hold
        exact lt_of_not_le (by simpa using hold)
      have hmem2 : ∀ p ∈ rs.pubTimes ++ [pub], ∀ t, w = some t → t < p := by
        intro p hpm t ht
        rcases List.mem_append.1 hpm with hm | hm
        · exact h2 p hm t ht
        · simp only [List.mem_singleton] at hm
          subst hm
          exact hlt t ht
      split_ifs with hq1 hq2 hq3
      · exact ⟨fun c hc => List.mem_append_left _ (h1 c hc), hmem2⟩
      · exact ⟨fun c hc => List.mem_append_left _ (h1 c hc), hmem2⟩
      · exact ⟨fun c hc => List.mem_append_left _ (h1 c hc), hmem2⟩
      · refine ⟨?_, hmem2⟩
        intro c hc
        rcases List.mem_append.1 hc with hm | hm
        · exact List.mem_append_left _ (h1 c hm)
        · simp only [List.mem_singleton] at hm
          subst hm
          simp

theorem foldl_stepRS_good (cfg : Config) (nrm : String → String) (w : Option Int) :
    ∀ (its : List Item) (rs : RunState), goodRS w rs →
      goodRS w (its.foldl (stepRS cfg nrm w) rs) := by
  intro its
  induction its with
  | nil => intro rs h; exact h
  | cons it rest ih =>
    intro rs h
    rw [List.foldl_cons]
    exact ih _ (stepRS_good cfg nrm w rs it h)

theorem foldl_max_ge (l : List Int) : ∀ (a x : Int), (x = a ∨ x ∈ l) →
    x ≤ l.foldl (fun a b => if a > b then a else b) a := by
  induction l with
  | nil =>
    intro a x hx
    rcases hx with rfl | hm
    · exact le_refl x
    · simp at hm
  | cons b bs ih =>
    intro a x hx
    rw [List.foldl_cons]
    have hab : a ≤ (if a > b then a else b) ∧ b ≤ (if a > b then a else b) := by
      by_cases hgt : a > b
      · rw [if_pos hgt]; exact ⟨le_refl a, le_of_lt hgt⟩
      · rw [if_neg hgt]; exact ⟨le_of_not_lt hgt, le_refl b⟩
    rcases hx with rfl | hm
    · exact le_trans hab.1 (ih _ _ (Or.inl rfl))
    · rcases List.mem_cons.1 hm with rfl | hm2
      · exact le_trans hab.2 (ih _ _ (Or.inl rfl))
      · exact ih _ x (Or.inr hm2)

theorem reduceMax_ge {l : List Int} {x : Int} (h : x ∈ l) :
    ∃ m, reduceMax l = some m ∧ x ≤ m := by
  cases l with
  | nil => simp at h
  | cons a as =>
    refine ⟨_, rfl, ?_⟩
    rcases List.mem_cons.1 h with rfl | hm
    · exact foldl_max_ge as x x (Or.inl rfl)
    · exact foldl_max_ge as a x (Or.inr hm)

theorem searchRecentNews_inv (cfg : Config) (nrm : String → String)
    (lastChecked : Option Int) (pages : List (List Item)) :
    ∃ rs : RunState,
      (searchRecentNews cfg nrm lastChecked pages).collected = rs.collected
      ∧ (searchRecentNews cfg nrm lastChecked pages).latestUTC = reduceMax rs.pubTimes
      ∧ goodRS lastChecked rs := by
  refine ⟨(runPagesAux cfg nrm lastChecked cfg.max_loops 1 pages ⟨initRunState, []⟩).1.rs,
    rfl, rfl, ?_⟩
  rw [runPagesAux_rs]
  exact foldl_stepRS_good cfg nrm lastChecked _ _
    ⟨by intro c hc; simp [initRunState] at hc, by intro p hp; simp [initRunState] at hp⟩

/- ───────────────────────── early-stop lemmas ───────────────────────── -/

theorem stepRS_stop_mono (cfg : Config) (nrm : String → String) (w : Option Int)
    (rs : RunState) (it : Item) (h : rs.stop = true) :
    (stepRS cfg nrm w rs it).stop = true := by
  rw [stepRS_eq]
  cases hp : it.pub with
  | none => exact h
  | some pub =>
    dsimp only
    split_ifs <;> simp [h]

theorem foldl_stop_mono (cfg : Config) (nrm : String → String) (w : Option Int) :
    ∀ (its : List Item) (rs : RunState), rs.stop = true →
      (its.foldl (stepRS cfg nrm w) rs).stop = true := by
  intro its
  induction its with
  | nil => intro rs h; exact h
  | cons it rest ih =>
    intro rs h
    rw [List.foldl_cons]
    exact ih _ (stepRS_stop_mono cfg nrm w rs it h)

theorem stepRS_stop_of_old (cfg : Config) (nrm : String → String) (w : Int)
    (rs : RunState) (it : Item) (pub : Int) (hp : it.pub = some pub) (hold : pub ≤ w) :
    (stepRS cfg nrm (some w) rs it).stop = true := by
  rw [stepRS_eq, hp]
  dsimp only
  rw [if_pos (by simp [isOld, hold])]

theorem scan_stop (cfg : Config) (nrm : String → String) (w : Int)
    {items : List Item} {it : Item} {pub : Int}
    (hmem : it ∈ items) (hp : it.pub = some pub) (hold : pub ≤ w) (rs : RunState)
    (pc : PageCounters) :
    ((items.foldl (processItem cfg nrm (some w)) (rs, pc)).1).stop = true := by
  rw [foldl_processItem_fst]
  obtain ⟨l1, l2, hsplit⟩ := List.append_of_mem hmem
  subst hsplit
  rw [List.foldl_append, List.foldl_cons]
  exact foldl_stop_mono cfg nrm (some w) l2 _
    (stepRS_stop_of_old cfg nrm w _ it pub hp hold)

theorem runPagesAux_stop_trunc (cfg : Config) (nrm : String → String) (w : Int)
    {pg : List Item} (pages2 : List (List Item)) {it : Item} {pub : Int}
    (hmem : it ∈ pg) (hp : it.pub = some pub) (hold : pub ≤ w) :
    ∀ (pages1 : List (List Item)) (budget pageNo : Nat) (acc : RunAcc),
      runPagesAux cfg nrm (some w) budget pageNo (pages1 ++ pg :: pages2) acc
        = runPagesAux cfg nrm (some w) budget pageNo (pages1 ++ [pg]) acc
      ∧ (runPagesAux cfg nrm (some w) budget pageNo (pages1 ++ pg :: pages2) acc).2
          ≤ pages1.length + 1 := by
  have hpgne : ¬(pg.isEmpty = true) := by
    intro hq
    rw [List.isEmpty_iff.1 hq] at hmem
    simp at hmem
  intro pages1
  induction pages1 with
  | nil =>
    intro budget pageNo acc
    cases budget with
    | zero => exact ⟨rfl, by simp [runPagesAux]⟩
    | succ n =>
      simp only [List.nil_append, runPagesAux]
      rw [if_neg hpgne, if_neg hpgne]
      have hstop := scan_stop cfg nrm w hmem hp hold acc.rs (⟨0, 0, 0⟩ : PageCounters)
      rw [if_pos hstop, if_pos hstop]
      exact ⟨rfl, le_refl 1⟩
  | cons q qs ih =>
    intro budget pageNo acc
    cases budget with
    | zero => exact ⟨rfl, by simp [runPagesAux]⟩
    | succ n =>
      simp only [List.cons_append, runPagesAux]
      by_cases hq : q.isEmpty = true
      · rw [if_pos hq, if_pos hq]
        exact ⟨rfl, by simp⟩
      · rw [if_neg hq, if_neg hq]
        split_ifs with hstop hshort
        · exact ⟨rfl, by simp⟩
        · exact ⟨rfl, by simp⟩
        · simp only [List.append_eq]
          constructor
          · rw [(ih n (pageNo + 1) _).1]
          · exact Nat.succ_le_succ (ih n (pageNo + 1) _).2

/- ───────────────────────── scheduled-run lemmas ───────────────────────── -/

theorem scheduled_skip (cfg : Config) (nrm : String → String) (kv : KVState)
    (now : Int) (pages : List (List Item))
    (h : kv.lastSent = some (computeTargetUTC now)) :
    scheduled cfg nrm kv now pages = ⟨kv, none, none⟩ := by
  simp only [scheduled]
  rw [if_pos h]

theorem scheduled_primary_lastSent (cfg : Config) (nrm : String → String) (kv : KVState)
    (now : Int) (pages : List (List Item)) (xs : List Candidate)
    (h : (scheduled cfg nrm kv now pages).primary = some xs) :
    (scheduled cfg nrm kv now pages).kv.lastSent = some (computeTargetUTC now) := by
  simp only [scheduled] at h ⊢
  by_cases hskip : kv.lastSent = some (computeTargetUTC now)
  · rw [if_pos hskip] at h
    simp at h
  · rw [if_neg hskip] at h ⊢
    dsimp only at h ⊢
    by_cases hsend : (computeShouldSend (toKST now)
          (searchRecentNews cfg nrm kv.lastChecked pages).collected.length
          cfg.min_send_threshold cfg.force_hours
        && decide (0 < (searchRecentNews cfg nrm kv.lastChecked pages).collected.length))
        = true
    · rw [if_pos hsend]
    · rw [if_neg hsend] at h
      simp at h

/- ───────────────────────── Claim C6 ───────────────────────── -/

/-- Claim C6: for every invocation hour `h`, candidate count `n`, threshold
`m` and force-hour set `F`, the send gate returns true iff (`h ∈ F` and
`n ≥ 1`) or (`h ∉ F` and `n ≥ m`); with `h ∈ F` it fires at `n = 1` even
when `m = 5`, and with `h ∉ F` it does not fire at `n = m − 1` (for `m ≥ 1`,
so that `m − 1` is a count). -/
theorem claim_C6 (t : Int) (n m : Nat) (F : List Int) :
    (computeShouldSend t n m F = true ↔
      ((hourOfDay t ∈ F ∧ 1 ≤ n) ∨ (hourOfDay t ∉ F ∧ m ≤ n)))
    ∧ (hourOfDay t ∈ F → computeShouldSend t 1 5 F = true)
    ∧ (hourOfDay t ∉ F → 1 ≤ m → computeShouldSend t (m - 1) m F = false) := by
  refine ⟨?_, ?_, ?_⟩
  · unfold computeShouldSend
    by_cases hF : F.contains (hourOfDay t) = true
    · rw [if_pos hF]
      have hmem : hourOfDay t ∈ F := by simpa using hF
      simp [hmem]
    · rw [if_neg hF]
      have hmem : hourOfDay t ∉ F := by simpa using hF
      simp [hmem]
  · intro hmem
    unfold computeShouldSend
    rw [if_pos (by simpa using hmem)]
    decide
  · intro hmem hm
    unfold computeShouldSend
    rw [if_neg (by simpa using hmem)]
    simp only [decide_eq_false_iff_not]
    omega

/-- Witness for C6 at concrete inputs: hour 0 of the KST instant 0 is in the
force set `[0]`, so one candidate beats a threshold of five; with an empty
force set, four candidates miss a threshold of five. -/
theorem claim_C6_witness :
    computeShouldSend 0 1 5 [0] = true ∧ computeShouldSend 0 4 5 [] = false := by
  constructor
  · exact (claim_C6 0 1 5 [0]).2.1 (by decide)
  · exact (claim_C6 0 4 5 []).2.2 (by decide) (by decide)

/- ───────────────────────── Claim C9 ───────────────────────── -/

/-- Claim C9: an item whose `pubDate` fails to parse is dropped silently:
processing it leaves the entire loop state (candidates, dedup set, publish
instants, all three filter counters, and the watermark-stop flag) exactly
unchanged, and scanning any item list containing it gives the same state as
scanning the list without it. -/
theorem claim_C9 (cfg : Config) (nrm : String → String) (w : Option Int)
    (rs : RunState) (pc : PageCounters) (ti li : String)
    (l1 l2 : List Item) (s : RunState × PageCounters) :
    processItem cfg nrm w (rs, pc) ⟨ti, li, none⟩ = (rs, pc)
    ∧ (l1 ++ ⟨ti, li, none⟩ :: l2).foldl (processItem cfg nrm w) s
        = (l1 ++ l2).foldl (processItem cfg nrm w) s := by
  have hid : ∀ s1 : RunState × PageCounters,
      processItem cfg nrm w s1 ⟨ti, li, none⟩ = s1 := by
    intro s1
    obtain ⟨a, b⟩ := s1
    rfl
  refine ⟨hid (rs, pc), ?_⟩
  rw [List.foldl_append, List.foldl_append, List.foldl_cons, hid]

/- ───────────────────────── Claim C7 ───────────────────────── -/

/-- Claim C7: in a scheduled run where the send gate declines, neither
`last_sent_target` nor `last_checked_time` is written — the KV state after
the run equals the KV state before it. -/
theorem claim_C7 (cfg : Config) (nrm : String → String) (kv : KVState)
    (now : Int) (pages : List (List Item))
    (h : computeShouldSend (toKST now)
        (searchRecentNews cfg nrm kv.lastChecked pages).collected.length
        cfg.min_send_threshold cfg.force_hours = false) :
    (scheduled cfg nrm kv now pages).kv = kv := by
  simp only [scheduled]
  by_cases hskip : kv.lastSent = some (computeTargetUTC now)
  · rw [if_pos hskip]
  · rw [if_neg hskip]
    dsimp only
    rw [h]
    simp

/-- Witness for C7: an empty run with threshold 1 outside any force hour
declines, and the persisted state is untouched. -/
theorem claim_C7_witness :
    (scheduled ⟨[], [], [], 30, 3, 1, []⟩ id ⟨none, none⟩ 0 []).kv
      = (⟨none, none⟩ : KVState) :=
  claim_C7 ⟨[], [], [], 30, 3, 1, []⟩ id ⟨none, none⟩ 0 [] (by decide)

/- ───────────────────────── Claim C10 ───────────────────────── -/

/-- Claim C10: in a scheduled run with an empty candidate list, no primary
notification is sent and no state is persisted even when the send gate
returns true (e.g. `min_send_threshold = 0` outside force hours): the send
requires a positive candidate count in addition to the gate decision. -/
theorem claim_C10 (cfg : Config) (nrm : String → String) (kv : KVState)
    (now : Int) (pages : List (List Item))
    (h : (searchRecentNews cfg nrm kv.lastChecked pages).collected = []) :
    (scheduled cfg nrm kv now pages).primary = none
    ∧ (scheduled cfg nrm kv now pages).kv = kv := by
  simp only [scheduled]
  by_cases hskip : kv.lastSent = some (computeTargetUTC now)
  · rw [if_pos hskip]
    exact ⟨rfl, rfl⟩
  · rw [if_neg hskip]
    dsimp only
    rw [h]
    simp

/-- Witness for C10: with `min_send_threshold = 0` and no force hours the
gate returns true on zero candidates, yet nothing is sent and nothing is
written. -/
theorem claim_C10_witness :
    computeShouldSend (toKST 0) 0 0 [] = true
    ∧ (scheduled ⟨[], [], [], 30, 3, 0, []⟩ id ⟨none, none⟩ 0 []).primary = none
    ∧ (scheduled ⟨[], [], [], 30, 3, 0, []⟩ id ⟨none, none⟩ 0 []).kv
        = (⟨none, none⟩ : KVState) := by
  refine ⟨by decide, ?_, ?_⟩
  · exact (claim_C10 ⟨[], [], [], 30, 3, 0, []⟩ id ⟨none, none⟩ 0 [] rfl).1
  · exact (claim_C10 ⟨[], [], [], 30, 3, 0, []⟩ id ⟨none, none⟩ 0 [] rfl).2

/- ───────────────────────── Claim C3 ───────────────────────── -/

/-- Claim C3: if the persisted `last_sent_target` read at the start of a
scheduled run equals the slot identifier computed from the invocation
instant, the run sends no primary notification and writes neither
`last_sent_target` nor `last_checked_time` (the whole outcome is a no-op);
consequently two consecutive scheduled runs whose invocation instants map to
the same slot identifier send the primary notification at most once. -/
theorem claim_C3 (cfg cfg2 : Config) (nrm nrm2 : String → String) (kv : KVState)
    (t t2 : Int) (pages pages2 : List (List Item)) :
    (kv.lastSent = some (computeTargetUTC t) →
      scheduled cfg nrm kv t pages = ⟨kv, none, none⟩)
    ∧ (computeTargetUTC t = computeTargetUTC t2 →
        (scheduled cfg nrm kv t pages).primary = none
        ∨ (scheduled cfg2 nrm2 (scheduled cfg nrm kv t pages).kv t2 pages2).primary
            = none) := by
  refine ⟨scheduled_skip cfg nrm kv t pages, ?_⟩
  intro heq
  by_cases h1 : (scheduled cfg nrm kv t pages).primary = none
  · exact Or.inl h1
  · right
    obtain ⟨xs, hxs⟩ : ∃ xs, (scheduled cfg nrm kv t pages).primary = some xs := by
      cases hx : (scheduled cfg nrm kv t pages).primary with
      | none => exact absurd hx h1
      | some xs => exact ⟨xs, rfl⟩
    have hsent := scheduled_primary_lastSent cfg nrm kv t pages xs hxs
    rw [heq] at hsent
    rw [scheduled_skip cfg2 nrm2 _ t2 pages2 hsent]

/-- Witness for C3: with `last_sent_target` already equal to the slot of
instant 0, the run is a complete no-op, and two runs at the same instant
never both send. -/
theorem claim_C3_witness :
    scheduled ⟨[], [], [], 30, 3, 1, []⟩ id ⟨some (computeTargetUTC 0), none⟩ 0 []
        = ⟨⟨some (computeTargetUTC 0), none⟩, none, none⟩
    ∧ ((scheduled ⟨[], [], [], 30, 3, 1, []⟩ id ⟨none, none⟩ 0 []).primary = none
      ∨ (scheduled ⟨[], [], [], 30, 3, 1, []⟩ id
          (scheduled ⟨[], [], [], 30, 3, 1, []⟩ id ⟨none, none⟩ 0 []).kv 0 []).primary
            = none) := by
  constructor
  · exact (claim_C3 ⟨[], [], [], 30, 3, 1, []⟩ ⟨[], [], [], 30, 3, 1, []⟩ id id
      ⟨some (computeTargetUTC 0), none⟩ 0 0 [] []).1 rfl
  · exact (claim_C3 ⟨[], [], [], 30, 3, 1, []⟩ ⟨[], [], [], 30, 3, 1, []⟩ id id
      ⟨none, none⟩ 0 0 [] []).2 rfl

/- ───────────────────────── Claim C5 (corrected) ───────────────────────── -/

/-- Counterexample to claim C5 as stated: a scheduled run whose slot was
already handled (`last_sent_target` equal to the computed slot identifier)
returns before composing the admin report, even though pages with items were
available — so not every scheduled run delivers the admin report. -/
theorem claim_C5_cex :
    (scheduled ⟨[], [], [], 30, 3, 1, []⟩ id ⟨some (computeTargetUTC 0), none⟩ 0
        [[⟨"t", "https://a/1", some 5⟩]]).admin = none := by
  rw [scheduled_skip _ _ _ _ _ rfl]

/-- Claim C5 as amended: every scheduled run that passes the slot-idempotency
check (persisted `last_sent_target` differs from the computed slot
identifier) delivers the aggregated admin report — candidate count,
send/hold status, totals of time-filtered, excluded and include-passed
counts summed over the per-page reports, the per-page breakdown, and the
earliest/latest accepted timestamps — whether or not the primary
notification fires.  A run skipped by the slot check delivers no report. -/
theorem claim_C5_amended (cfg : Config) (nrm : String → String) (kv : KVState)
    (now : Int) (pages : List (List Item))
    (h : ¬ kv.lastSent = some (computeTargetUTC now)) :
    (scheduled cfg nrm kv now pages).admin = some
      { count := (searchRecentNews cfg nrm kv.lastChecked pages).collected.length
        sent := computeShouldSend (toKST now)
            (searchRecentNews cfg nrm kv.lastChecked pages).collected.length
            cfg.min_send_threshold cfg.force_hours
          && decide (0 < (searchRecentNews cfg nrm kv.lastChecked pages).collected.length)
        totalLatest := (searchRecentNews cfg nrm kv.lastChecked pages).loopReports.foldl
          (fun s r => s + r.time_filtered) 0
        totalExcl := (searchRecentNews cfg nrm kv.lastChecked pages).loopReports.foldl
          (fun s r => s + r.title_exclude_hit) 0
        totalPass := (searchRecentNews cfg nrm kv.lastChecked pages).loopReports.foldl
          (fun s r => s + r.title_include_pass) 0
        loopReports := (searchRecentNews cfg nrm kv.lastChecked pages).loopReports
        latestUTC := (searchRecentNews cfg nrm kv.lastChecked pages).latestUTC
        earliestUTC := (searchRecentNews cfg nrm kv.lastChecked pages).earliestUTC } := by
  simp only [scheduled]
  rw [if_neg h]

/-- Witness for the amended C5: a fresh state passes the slot check and the
admin report is present even though the gate holds back. -/
theorem claim_C5_witness :
    ((scheduled ⟨[], [], [], 30, 3, 1, []⟩ id ⟨none, none⟩ 0 []).admin).isSome = true := by
  rw [claim_C5_amended ⟨[], [], [], 30, 3, 1, []⟩ id ⟨none, none⟩ 0 [] (by simp)]
  rfl

/- ───────────────────────── Claim C1 ───────────────────────── -/

/-- Claim C1: over the pages actually fetched in a run, the collected
candidate list is exactly the list selected by the spec rule — an article is
accepted iff its parsed `published_at` is strictly newer than the persisted
watermark, the include list is empty or some normalized include term is a
substring of the normalized title, no normalized exclude term is a
substring, and its canonicalized URL was not accepted earlier in the run. -/
theorem claim_C1 (cfg : Config) (nrm : String → String) (w : Int)
    (pages : List (List Item)) :
    (searchRecentNews cfg nrm (some w) pages).collected
      = collectSpec cfg nrm w []
          ((pages.take (searchRecentNews cfg nrm (some w) pages).pagesRequested).flatten) := by
  have h1 : (searchRecentNews cfg nrm (some w) pages).collected
      = (runPagesAux cfg nrm (some w) cfg.max_loops 1 pages ⟨initRunState, []⟩).1.rs.collected :=
    rfl
  have h2 : (searchRecentNews cfg nrm (some w) pages).pagesRequested
      = (runPagesAux cfg nrm (some w) cfg.max_loops 1 pages ⟨initRunState, []⟩).2 := rfl
  rw [h1, h2, runPagesAux_rs]
  have h3 := (foldl_stepRS_collectSpec cfg nrm w
    ((pages.take (runPagesAux cfg nrm (some w) cfg.max_loops 1 pages ⟨initRunState, []⟩).2).flatten)
    initRunState rfl).1
  rw [h3]
  simp [initRunState]

/- ───────────────────────── Claim C4 (corrected) ───────────────────────── -/

/-- Counterexample to claim C4 as stated: with watermark 50, a page holding
an old item (instant 40) followed by a fresh item (instant 100) still gets
the fresh item accepted — the watermark hit skips the old item and stops
later paging, but does not abandon the rest of the page, so an item after
the watermark crossing can be collected. -/
theorem claim_C4_cex :
    (searchRecentNews ⟨[], [], [], 30, 3, 1, []⟩ id (some 50)
        [[⟨"old", "https://a/o", some 40⟩, ⟨"new", "https://a/n", some 100⟩]]).collected
      = [⟨"new", "https://a/n", 100⟩]
    ∧ (40 : Int) ≤ 50 := by
  constructor
  · rfl
  · decide

/-- Claim C4 as amended: once a page contains an item with `published_at` at
or before the watermark, no page beyond that one is requested and the whole
run result is already determined by the pages up to and including it (so no
item of any later page is accepted); items later in the same page are still
processed and may be accepted. -/
theorem claim_C4_amended (cfg : Config) (nrm : String → String) (w : Int)
    (pages1 : List (List Item)) (pg : List Item) (pages2 : List (List Item))
    (it : Item) (pub : Int)
    (hmem : it ∈ pg) (hp : it.pub = some pub) (hold : pub ≤ w) :
    searchRecentNews cfg nrm (some w) (pages1 ++ pg :: pages2)
      = searchRecentNews cfg nrm (some w) (pages1 ++ [pg])
    ∧ (searchRecentNews cfg nrm (some w) (pages1 ++ pg :: pages2)).pagesRequested
        ≤ pages1.length + 1 := by
  obtain ⟨he, hc⟩ := runPagesAux_stop_trunc cfg nrm w pages2 hmem hp hold
    pages1 cfg.max_loops 1 ⟨initRunState, []⟩
  constructor
  · simp only [searchRecentNews]
    rw [he]
  · exact hc

/-- Witness for the amended C4: first page holds only an old item, so the
run equals the run on that single page and requests exactly one page — the
later page with a fresh item is never fetched. -/
theorem claim_C4_witness :
    searchRecentNews ⟨[], [], [], 30, 3, 1, []⟩ id (some 50)
        ([⟨"old", "https://a/o", some 40⟩]
          :: [[⟨"later", "https://a/l", some 99⟩]])
      = searchRecentNews ⟨[], [], [], 30, 3, 1, []⟩ id (some 50)
          [[⟨"old", "https://a/o", some 40⟩]]
    ∧ (searchRecentNews ⟨[], [], [], 30, 3, 1, []⟩ id (some 50)
        ([⟨"old", "https://a/o", some 40⟩]
          :: [[⟨"later", "https://a/l", some 99⟩]])).pagesRequested ≤ 1 := by
  have h := claim_C4_amended ⟨[], [], [], 30, 3, 1, []⟩ id 50 []
    [⟨"old", "https://a/o", some 40⟩] [[⟨"later", "https://a/l", some 99⟩]]
    ⟨"old", "https://a/o", some 40⟩ 40 (by decide) rfl (by decide)
  exact ⟨h.1, h.2⟩

/- ───────────────────────── Claim C2 (corrected) ───────────────────────── -/

/-- Counterexample to claim C2 as stated: in a sending run the watermark is
advanced to the newest instant among all watermark-passing items — including
items later rejected by the keyword filter — so it can exceed the maximum
`published_at` over all delivered articles.  Here the delivered article has
instant 50, but a rejected fresher item (instant 100) drives the watermark
to 100 > 50. -/
theorem claim_C2_cex :
    (scheduled ⟨[], ["club"], [], 30, 3, 1, []⟩ id ⟨none, none⟩ 0
        [[⟨"x", "https://a/1", some 100⟩, ⟨"club", "https://a/2", some 50⟩]]).primary
      = some [⟨"club", "https://a/2", 50⟩]
    ∧ (scheduled ⟨[], ["club"], [], 30, 3, 1, []⟩ id ⟨none, none⟩ 0
        [[⟨"x", "https://a/1", some 100⟩, ⟨"club", "https://a/2", some 50⟩]]).kv.lastChecked
      = some 100
    ∧ ¬((100 : Int) ≤ 50) := by
  refine ⟨rfl, rfl, by decide⟩

/-- Claim C2 as amended: on a successful send the watermark is advanced to
`latestUTC`, the maximum `published_at` over the run's watermark-passing
(time-filtered) articles; that maximum is at least every delivered article's
`published_at` (but can exceed their maximum) and is strictly above the
watermark read at the start of the run; an article is delivered only if its
`published_at` strictly exceeds the watermark read at the start of the run;
and when no primary notification is sent the watermark is unchanged. -/
theorem claim_C2_amended (cfg : Config) (nrm : String → String) (kv : KVState)
    (now : Int) (pages : List (List Item)) :
    (∀ xs, (scheduled cfg nrm kv now pages).primary = some xs →
        (scheduled cfg nrm kv now pages).kv.lastChecked
            = (searchRecentNews cfg nrm kv.lastChecked pages).latestUTC
        ∧ ∃ m, (searchRecentNews cfg nrm kv.lastChecked pages).latestUTC = some m
            ∧ (∀ c ∈ xs, c.pubUTC ≤ m)
            ∧ (∀ t, kv.lastChecked = some t → t < m)
            ∧ (∀ c ∈ xs, ∀ t, kv.lastChecked = some t → t < c.pubUTC))
    ∧ ((scheduled cfg nrm kv now pages).primary = none →
        (scheduled cfg nrm kv now pages).kv.lastChecked = kv.lastChecked) := by
  obtain ⟨rs, hcol, hlat, hgood⟩ := searchRecentNews_inv cfg nrm kv.lastChecked pages
  constructor
  · intro xs hxs
    by_cases hskip : kv.lastSent = some (computeTargetUTC now)
    · rw [scheduled_skip cfg nrm kv now pages hskip] at hxs
      simp at hxs
    · simp only [scheduled] at hxs ⊢
      rw [if_neg hskip] at hxs ⊢
      dsimp only at hxs ⊢
      by_cases hsend : (computeShouldSend (toKST now)
            (searchRecentNews cfg nrm kv.lastChecked pages).collected.length
            cfg.min_send_threshold cfg.force_hours
          && decide (0 < (searchRecentNews cfg nrm kv.lastChecked pages).collected.length))
          = true
      · rw [if_pos hsend] at hxs ⊢
        have hxseq : (searchRecentNews cfg nrm kv.lastChecked pages).collected = xs :=
          Option.some.inj hxs
        have hpos : 0 < (searchRecentNews cfg nrm kv.lastChecked pages).collected.length := by
          have h2 := hsend
          rw [Bool.and_eq_true] at h2
          simpa using h2.2
        obtain ⟨c0, hc0⟩ := List.exists_mem_of_length_pos hpos
        have hc0rs : c0 ∈ rs.collected := by
          rw [← hcol]
          exact hc0
        have hc0pub : c0.pubUTC ∈ rs.pubTimes := hgood.1 c0 hc0rs
        obtain ⟨m, hm, hle0⟩ := reduceMax_ge hc0pub
        have hlat2 : (searchRecentNews cfg nrm kv.lastChecked pages).latestUTC = some m := by
          rw [hlat, hm]
        have hmemrs : ∀ c ∈ xs, c.pubUTC ∈ rs.pubTimes := by
          intro c hc
          refine hgood.1 c ?_
          rw [← hcol, hxseq]
          exact hc
        refine ⟨?_, m, hlat2, ?_, ?_, ?_⟩
        · rw [hlat2]
        · intro c hc
          obtain ⟨m2, hm2, hle2⟩ := reduceMax_ge (hmemrs c hc)
          have hmeq : m2 = m := by
            rw [hlat] at hlat2
            rw [hm2] at hlat2
            exact Option.some.inj hlat2
          exact hmeq ▸ hle2
        · intro t ht
          exact lt_of_lt_of_le (hgood.2 c0.pubUTC hc0pub t ht) hle0
        · intro c hc t ht
          exact hgood.2 c.pubUTC (hmemrs c hc) t ht
      · rw [if_neg hsend] at hxs
        simp at hxs
  · intro hnone
    by_cases hskip : kv.lastSent = some (computeTargetUTC now)
    · rw [scheduled_skip cfg nrm kv now pages hskip]
    · simp only [scheduled] at hnone ⊢
      rw [if_neg hskip] at hnone ⊢
      dsimp only at hnone ⊢
      by_cases hsend : (computeShouldSend (toKST now)
            (searchRecentNews cfg nrm kv.lastChecked pages).collected.length
            cfg.min_send_threshold cfg.force_hours
          && decide (0 < (searchRecentNews cfg nrm kv.lastChecked pages).collected.length))
          = true
      · rw [if_pos hsend] at hnone
        simp at hnone
      · rw [if_neg hsend]

/-- Witness for the amended C2: in the concrete sending run the persisted
watermark equals the run's newest time-filtered instant. -/
theorem claim_C2_witness :
    (scheduled ⟨[], ["club"], [], 30, 3, 1, []⟩ id ⟨none, none⟩ 0
        [[⟨"x", "https://a/1", some 100⟩, ⟨"club", "https://a/2", some 50⟩]]).kv.lastChecked
      = (searchRecentNews ⟨[], ["club"], [], 30, 3, 1, []⟩ id
          ((⟨none, none⟩ : KVState)).lastChecked
          [[⟨"x", "https://a/1", some 100⟩, ⟨"club", "https://a/2", some 50⟩]]).latestUTC :=
  ((claim_C2_amended ⟨[], ["club"], [], 30, 3, 1, []⟩ id ⟨none, none⟩ 0
      [[⟨"x", "https://a/1", some 100⟩, ⟨"club", "https://a/2", some 50⟩]]).1
    [⟨"club", "https://a/2", 50⟩] rfl).1

/- ───────────────────────── Claim C8 ───────────────────────── -/

/-- Claim C8: URL canonicalization is idempotent — canonicalizing a
canonical URL returns it unchanged; two parseable URLs that differ only in
the fixed tracking query parameters (same host/path, same fragment, same
query after deleting tracking keys) canonicalize to the same string; and an
item whose canonical link was already accepted in this run is dropped by the
deduplicator — neither the candidate list nor the dedup set changes. -/
theorem claim_C8 (s u1 u2 : String) (a b : Url) (cfg : Config)
    (nrm : String → String) (w : Option Int) (rs : RunState) (pc : PageCounters)
    (it : Item) :
    normalizeUrl (normalizeUrl s) = normalizeUrl s
    ∧ (parseUrl u1 = some a → parseUrl u2 = some b →
        a.hostpath = b.hostpath → a.frag = b.frag →
        a.query.filter (fun p => !(trackingKeys.contains p.1))
            = b.query.filter (fun p => !(trackingKeys.contains p.1)) →
        normalizeUrl u1 = normalizeUrl u2)
    ∧ (rs.seen.contains (itemLink it) = true →
        (processItem cfg nrm w (rs, pc) it).1.collected = rs.collected
        ∧ (processItem cfg nrm w (rs, pc) it).1.seen = rs.seen) := by
  refine ⟨normalizeUrl_idem s, ?_, ?_⟩
  · intro h1 h2 hh hf hq
    unfold normalizeUrl
    rw [h1, h2]
    dsimp only
    unfold normalizeUrlCore
    rw [hh, hf, hq]
  · intro hseen
    have hfst : (processItem cfg nrm w (rs, pc) it).1 = stepRS cfg nrm w rs it :=
      processItem_fst cfg nrm w rs pc ⟨0, 0, 0⟩ it
    rw [hfst, stepRS_eq]
    cases hp : it.pub with
    | none => exact ⟨rfl, rfl⟩
    | some pub =>
      dsimp only
      rw [if_pos hseen]
      split_ifs with h1 h2 h3 <;> exact ⟨rfl, rfl⟩

/-- Witness for C8: two links into the same article differing only by
`utm_source`/`fbclid` tracking parameters canonicalize identically, and an
item re-presenting the already-seen canonical link adds nothing. -/
theorem claim_C8_witness :
    normalizeUrl "http://ex.com/a?utm_source=x&id=3"
      = normalizeUrl "https://ex.com/a?id=3&fbclid=z"
    ∧ (processItem ⟨[], [], [], 30, 3, 1, []⟩ id none
        (⟨["https://ex.com/a?id=3"], [], [], false⟩, ⟨0, 0, 0⟩)
        ⟨"t", "https://ex.com/a?id=3&fbclid=z", some 5⟩).1.collected = [] := by
  constructor
  · exact (claim_C8 "x" "http://ex.com/a?utm_source=x&id=3" "https://ex.com/a?id=3&fbclid=z"
      ⟨"http".toList, "ex.com/a".toList,
        [("utm_source".toList, "x".toList), ("id".toList, "3".toList)], none⟩
      ⟨"https".toList, "ex.com/a".toList,
        [("id".toList, "3".toList), ("fbclid".toList, "z".toList)], none⟩
      ⟨[], [], [], 30, 3, 1, []⟩ id none ⟨[], [], [], false⟩ ⟨0, 0, 0⟩
      ⟨"t", "x", none⟩).2.1
      (by decide) (by decide) (by decide) (by decide) (by decide)
  · exact ((claim_C8 "x" "x" "x"
      ⟨[], [], [], none⟩ ⟨[], [], [], none⟩
      ⟨[], [], [], 30, 3, 1, []⟩ id none
      ⟨["https://ex.com/a?id=3"], [], [], false⟩ ⟨0, 0, 0⟩
      ⟨"t", "https://ex.com/a?id=3&fbclid=z", some 5⟩).2.2 (by decide)).1
